import Mathlib

/-!
# Verification of the CSP calendar solver (`src/csp_solver.py`)

This file shallowly embeds the solver module `src/csp_solver.py` in Lean.

Modelling conventions:
* Python `datetime` values are opaque data that the solver compares only by
  equality; we model them as natural numbers (`Date := Nat`).
* Python `set[datetime]` objects are modelled as `List Date`; the list order
  models the set's iteration order (Python set iteration order is
  implementation defined; the solver's docstrings state that iteration order
  only affects which solution is found first).
* Code that can raise an exception is modelled in the `Except PyErr` monad;
  `.error e` models an uncaught Python exception of kind `e`.
* The external collaborator module `date_constraints` is not part of `src/`;
  its interface is modelled from §6 of the spec (see the doc comments marked
  "Modelled from the spec").
-/

namespace CspSolver

/-- Python `datetime` values are opaque in the solver (only compared for
equality and passed to the constraint predicates); we model them as `Nat`. -/
abbrev Date := Nat

/-- The kinds of Python exceptions the modelled code can raise.
`outOfFuel` is an artifact of embedding the AC-3 `while` loop with explicit
fuel; the fuel chosen in `ac_preprocessing` dominates the loop's iteration
count, so this value is unreachable from the solver's entry points. -/
inductive PyErr where
  | typeErr
  | keyErr
  | indexErr
  | valueErr
  | outOfFuel
  deriving DecidableEq, Repr

/-- Modelled from the spec (§3, §6): the external `date_constraints.DateConstraint`
collaborator (the repository's `src/` does not contain `date_constraints.py`).
A constraint is either unary (references one variable index `l`) or binary
(references `l` and `r`), and carries its pointwise satisfaction predicate
over concrete datetime values. -/
inductive DateConstraint where
  | unary (l : Nat) (sat : Date → Bool)
  | binary (l : Nat) (r : Nat) (sat : Date → Date → Bool)

namespace DateConstraint

/-- Modelled from the spec (§6): `arity()` returns 1 for unary and 2 for
binary constraints. -/
def arity : DateConstraint → Nat
  | unary _ _ => 1
  | binary _ _ _ => 2

/-- Modelled from the spec (§6): `L_VAL` is the integer variable index, always
present. -/
def L_VAL : DateConstraint → Nat
  | unary l _ => l
  | binary l _ _ => l

/-- Modelled from the spec (§6): `R_VAL` is an integer variable index if the
constraint is binary, and a non-integer sentinel if unary; the sentinel is
modelled as `none`. -/
def R_VAL : DateConstraint → Option Nat
  | unary _ _ => none
  | binary _ r _ => some r

/-- Modelled from the spec (§6): `get_reverse()` — for binary constraints,
an equivalent constraint with `L_VAL`/`R_VAL` swapped and the satisfaction
logic flipped so that evaluating the reverse at `(head, tail)` equals the
original relation at `(tail, head)`.  The solver only calls it on binary
constraints (guarded by `arity() > 1`); on unary constraints we return the
constraint unchanged for totality. -/
def get_reverse : DateConstraint → DateConstraint
  | unary l s => unary l s
  | binary l r s => binary r l (fun a b => s b a)

/-- Modelled from the spec (§6): the one-argument form
`is_satisfied_by_values(v)` used by node consistency.  The solver only calls
it on unary constraints (guarded by `arity() == 1`); the binary case never
occurs and returns `true` for totality. -/
def is_satisfied_by_values1 : DateConstraint → Date → Bool
  | unary _ s, d => s d
  | binary _ _ _, _ => true

/-- Modelled from the spec (§6): the two-argument form
`is_satisfied_by_values(tail, head)` used by arc consistency.  The solver only
calls it through `Arc`s, which are built from binary constraints only; the
unary case never occurs and applies the predicate to the first value for
totality. -/
def is_satisfied_by_values2 : DateConstraint → Date → Date → Bool
  | binary _ _ s, a, b => s a b
  | unary _ s, a, _ => s a

/-- Modelled from the spec (§6): `is_satisfied_by_assignment(assignment)` —
a predicate over a full-length assignment vector with possibly-unassigned
slots; a constraint whose referenced slot is unassigned (or absent) is
treated as vacuously satisfied. -/
def is_satisfied_by_assignment (c : DateConstraint) (assignment : List (Option Date)) : Bool :=
  match c with
  | unary l s =>
    match assignment.getD l none with
    | none => true
    | some d => s d
  | binary l r s =>
    match assignment.getD l none, assignment.getD r none with
    | some d1, some d2 => s d1 d2
    | _, _ => true

end DateConstraint

/-! ## Node consistency (`node_consistency`, lines 117–154) -/

/-- Python `set.remove(d)`: removes `d`, raising `KeyError` when `d` is
absent. -/
def removeE (s : List Date) (d : Date) : Except PyErr (List Date) :=
  if d ∈ s then .ok (s.erase d) else .error .keyErr

/-- The inner constraint loop of `node_consistency` (lines 148–153) for one
candidate value `d` of variable `i`: every unary constraint targeting `i`
that rejects `d` performs `current_dom.remove(d)` (note: the Python loop has
no `break`, so a value rejected by two constraints is removed twice, the
second removal raising `KeyError`). -/
def pruneVal (i : Nat) (cs : List DateConstraint) (d : Date) (cur : List Date) :
    Except PyErr (List Date) :=
  cs.foldlM
    (fun acc c =>
      match c with
      | .unary l s => if l == i && !(s d) then removeE acc d else .ok acc
      | .binary _ _ _ => .ok acc)
    cur

/-- One iteration of the outer loop of `node_consistency` (lines 145–154):
`current_dom` starts as the snapshot copy `set(dom)` and each value of the
live `dom` is checked against all constraints. -/
def nodeVar (i : Nat) (dom : List Date) (cs : List DateConstraint) : Except PyErr (List Date) :=
  dom.foldlM (fun cur d => pruneVal i cs d cur) dom

/-- The outer loop of `node_consistency` over `enumerate(domains)`; entry `i`
is replaced by its filtered snapshot.  An exception aborts the whole call
(later entries are left unprocessed). -/
def nodeAux (cs : List DateConstraint) : Nat → List (List Date) → Except PyErr (List (List Date))
  | _, [] => .ok []
  | i, dom :: rest => do
    let d ← nodeVar i dom cs
    let rest' ← nodeAux cs (i + 1) rest
    pure (d :: rest')

/-- The function `node_consistency(domains, constraints)` (lines 117–154), returning the
mutated `domains` list. -/
def node_consistency (domains : List (List Date)) (cs : List DateConstraint) :
    Except PyErr (List (List Date)) :=
  nodeAux cs 0 domains

/-! ## Arcs and arc consistency (`Arc`, `arc_consistency`, lines 160–296) -/

/-- The `Arc` helper class (lines 160–209): a directed `TAIL → HEAD` pair with
its underlying constraint. -/
structure Arc where
  CONSTRAINT : DateConstraint
  TAIL : Nat
  HEAD : Nat

/-- The constructor `Arc.__init__` (lines 181–195): `TAIL` is the constraint's `L_VAL`; if
`R_VAL` is an integer it becomes `HEAD`, otherwise the constructor raises
`ValueError("[X] Cannot create Arc from Unary Constraint")`. -/
def Arc.init (constraint : DateConstraint) : Except PyErr Arc :=
  match constraint.R_VAL with
  | some r => .ok ⟨constraint, constraint.L_VAL, r⟩
  | none => .error .valueErr

/-- Python `lst[i]`, raising `IndexError` when out of range. -/
def getE {α : Type} (l : List α) (i : Nat) : Except PyErr α :=
  match l[i]? with
  | some x => .ok x
  | none => .error .indexErr

/-- The loop of `inconsistent_val_removal` (lines 284–292) over the snapshot
`tail_dom.copy()`.  `cur` is the live tail set; `head0` is the head set as
read before the loop.  When the arc's tail and head denote the same set
object (`selfAlias`), the Python local `head_dom` aliases the live tail set,
so support is looked up in `cur` instead.  `set.remove` of a value that is
still present is modelled by `List.erase`; the `removed` flag is only set
when the value was actually present (with set-valued, duplicate-free domains
the value is always present, exactly as in Python). -/
def reviseLoop (c : DateConstraint) (selfAlias : Bool) (head0 : List Date) :
    List Date → List Date → Bool → List Date × Bool
  | [], cur, removed => (cur, removed)
  | t :: ts, cur, removed =>
    let hd := if selfAlias then cur else head0
    if hd.any (fun h => c.is_satisfied_by_values2 t h) then
      reviseLoop c selfAlias head0 ts cur removed
    else
      reviseLoop c selfAlias head0 ts (cur.erase t) (removed || cur.contains t)

/-- The function `inconsistent_val_removal(doms, current_arc)` (lines 265–294): removes
every tail value with no supporting head value, returning whether anything
was removed together with the updated domains.  Indexing `doms[TAIL]` /
`doms[HEAD]` raises `IndexError` when out of range.  Two distinct entries of
`doms` are distinct set objects on every call reachable from `solve` (the
snapshot copies made by `node_consistency` break the initial aliasing), so
the live head set aliases the live tail set exactly when `TAIL = HEAD`. -/
def inconsistent_val_removal (doms : List (List Date)) (a : Arc) :
    Except PyErr (Bool × List (List Date)) := do
  let tailDom ← getE doms a.TAIL
  let headDom ← getE doms a.HEAD
  let res := reviseLoop a.CONSTRAINT (a.TAIL == a.HEAD) headDom tailDom tailDom false
  pure (res.2, doms.set a.TAIL res.1)

/-- The arc-initialization loop of `ac_preprocessing` (lines 252–255): for
every constraint of arity > 1 (i.e. every binary constraint), both the
forward arc `Arc(c)` and the reverse arc `Arc(c.get_reverse())` are added.
The worklist is modelled as a list processed front-first (`set.pop()` removes
an arbitrary element; the list order fixes one realization of that
arbitrary choice). -/
def initArcs (cs : List DateConstraint) : List Arc :=
  cs.flatMap fun c =>
    match c with
    | .binary l r s =>
      [⟨.binary l r s, l, r⟩, ⟨(DateConstraint.binary l r s).get_reverse, r, l⟩]
    | .unary _ _ => []

/-- The re-insertion step of `ac_preprocessing` (lines 261–263): after a
revision removed values from the tail variable `t`, every *original*
constraint with `arity() > 1` and `R_VAL == t` contributes `Arc(constraint)`
back to the worklist.  (Note: only forward arcs of original constraints are
re-inserted; arcs derived from reversed constraints are not.) -/
def reinsertArcs (cs : List DateConstraint) (t : Nat) : List Arc :=
  cs.filterMap fun c =>
    match c with
    | .binary l r s => if r == t then some ⟨.binary l r s, l, r⟩ else none
    | .unary _ _ => none

/-- Total number of candidate values across all domains; used to bound the
AC-3 loop. -/
def totalSize (doms : List (List Date)) : Nat :=
  (doms.map List.length).sum

/-- Fuel bound for the AC-3 worklist loop: every iteration consumes one arc,
and arcs are only added (at most `cs.length` of them) when a revision
removed at least one value, which can happen at most `totalSize doms` times;
hence the loop runs at most `(initArcs cs).length + totalSize doms * cs.length`
iterations. -/
def acFuel (doms : List (List Date)) (cs : List DateConstraint) : Nat :=
  (initArcs cs).length + totalSize doms * cs.length + 1

/-- The `while arcs:` loop of `ac_preprocessing` (lines 258–263), with
explicit fuel (see `acFuel`; the `outOfFuel` branch is unreachable from the
solver's entry points). -/
def acLoop (cs : List DateConstraint) : Nat → List (List Date) → List Arc →
    Except PyErr (List (List Date))
  | _, doms, [] => .ok doms
  | 0, _, _ :: _ => .error .outOfFuel
  | fuel + 1, doms, a :: rest =>
    match inconsistent_val_removal doms a with
    | .error e => .error e
    | .ok (removed, doms') =>
      if removed then acLoop cs fuel doms' (rest ++ reinsertArcs cs a.TAIL)
      else acLoop cs fuel doms' rest

/-- The helper `ac_preprocessing(doms, constraints)` (lines 236–263). -/
def ac_preprocessing (doms : List (List Date)) (cs : List DateConstraint) :
    Except PyErr (List (List Date)) :=
  acLoop cs (acFuel doms cs) doms (initArcs cs)

/-- The function `arc_consistency(domains, constraints)` (lines 211–296). -/
def arc_consistency (domains : List (List Date)) (cs : List DateConstraint) :
    Except PyErr (List (List Date)) :=
  ac_preprocessing domains cs

/-! ## Backtracking search (`recursive_csp_backtracker`, lines 73–110) -/

/-- The candidate-value loop of `recursive_csp_backtracker` (lines 96–108):
try each value of the current variable's domain in iteration order,
tentatively assigning it, checking all constraints against the partial
assignment, recursing when they pass, and undoing the tentative assignment
otherwise.  `if result:` in Python is false for both `None` and the empty
list, hence the explicit `r.isEmpty` test (an empty list can only be
returned when `assignments` itself is empty, which cannot happen here since
the current variable index exists). -/
def tryVals (check : List (Option Date) → Bool)
    (recurse : List (Option Date) → Option (List (Option Date)))
    (assignments : List (Option Date)) (i : Nat) :
    List Date → Option (List (Option Date))
  | [] => none
  | d :: rest =>
    let a := assignments.set i (some d)
    if check a then
      match recurse a with
      | some r =>
        if r.isEmpty then tryVals check recurse assignments i rest else some r
      | none => tryVals check recurse assignments i rest
    else tryVals check recurse assignments i rest

/-- The function `recursive_csp_backtracker(assignments, vars, doms, constraints)`
(lines 73–110).  The Python loop `for assignment in assignments: if
assignment: continue else: current_var = assignments.index(assignment)`
selects the first unassigned slot (`datetime` objects are always truthy, so
truthiness coincides with being assigned); if every slot is assigned the
assignment list itself is returned.  The Python function recurses natively;
here the recursion depth is paid for by a fuel argument.  Each recursive
call has strictly fewer unassigned slots, and the top-level call passes
`fuel = vars` with `vars` unassigned slots, so the `fuel = 0` branch (which
requires an unassigned slot to remain) is unreachable from `solve`. -/
def recursive_csp_backtracker (cs : List DateConstraint) (doms : List (List Date)) :
    Nat → List (Option Date) → Option (List (Option Date))
  | 0, assignments =>
    match assignments.findIdx? (fun a => a.isNone) with
    | none => some assignments
    | some _ => none
  | fuel + 1, assignments =>
    match assignments.findIdx? (fun a => a.isNone) with
    | none => some assignments
    | some i =>
      tryVals (fun a => cs.all fun c => c.is_satisfied_by_assignment a)
        (recursive_csp_backtracker cs doms fuel)
        assignments i (doms.getD i [])

/-- The helper `csp_backtracker(vars, doms, date_constraints)` (lines 50–71): runs node
consistency, then arc consistency, then the recursive backtracker on an
all-unassigned assignment vector.  `doms0` is the list
`[date_range for _ in range(n_meetings)]` rebuilt by line 67 (see `solve`). -/
def csp_backtracker (vars : Nat) (doms0 : List (List Date)) (cs : List DateConstraint) :
    Except PyErr (Option (List (Option Date))) := do
  let d1 ← node_consistency doms0 cs
  let d2 ← arc_consistency d1 cs
  pure (recursive_csp_backtracker cs d2 vars (List.replicate vars none))

/-- The two input forms of `solve`'s `date_range` parameter:
a single shared candidate set, or a list of candidate sets. -/
inductive DateRange where
  | single (s : List Date)
  | multi (l : List (List Date))

/-- The entry point `solve(n_meetings, date_range, constraints)` (lines 19–113).  Line 67
rebuilds `doms = [date_range for _ in range(n_meetings)]`, so every entry is
the same object `date_range`:
* if `date_range` is a single set, every "domain" is that set (the snapshot
  copies taken by `node_consistency` then separate the variables);
* if `date_range` is a *list* of sets, every "domain" is the whole list, and
  `node_consistency`'s snapshot `set(dom)` (line 143) tries to hash the inner
  `set` objects and raises `TypeError` — unless the list is empty (then each
  domain is an empty collection) or `n_meetings = 0` (then `doms` is empty
  and no snapshot is taken). -/
def solve (n_meetings : Nat) (date_range : DateRange) (cs : List DateConstraint) :
    Except PyErr (Option (List (Option Date))) :=
  match date_range with
  | .single s => csp_backtracker n_meetings (List.replicate n_meetings s) cs
  | .multi l =>
    if n_meetings = 0 then csp_backtracker 0 [] cs
    else if l.isEmpty then csp_backtracker n_meetings (List.replicate n_meetings []) cs
    else .error .typeErr

/-! ## Instrumented backtracker

`recursive_csp_backtrackerC` is the same function as
`recursive_csp_backtracker` but additionally counts how many tentative
assignments (`assignments[current_var] = dom`, line 97) the search performs;
`backtrackerC_fst` below proves the first component is exactly
`recursive_csp_backtracker`.  This makes the spec's "without performing
search" statements observable in the embedding. -/

/-- Counting variant of `tryVals`; the second component is the number of
tentative assignments performed. -/
def tryValsC (check : List (Option Date) → Bool)
    (recurse : List (Option Date) → Option (List (Option Date)) × Nat)
    (assignments : List (Option Date)) (i : Nat) :
    List Date → Option (List (Option Date)) × Nat
  | [] => (none, 0)
  | d :: rest =>
    let a := assignments.set i (some d)
    if check a then
      match recurse a with
      | (some r, k) =>
        if r.isEmpty then
          let res := tryValsC check recurse assignments i rest
          (res.1, 1 + k + res.2)
        else (some r, 1 + k)
      | (none, k) =>
        let res := tryValsC check recurse assignments i rest
        (res.1, 1 + k + res.2)
    else
      let res := tryValsC check recurse assignments i rest
      (res.1, 1 + res.2)

/-- Counting variant of `recursive_csp_backtracker`. -/
def recursive_csp_backtrackerC (cs : List DateConstraint) (doms : List (List Date)) :
    Nat → List (Option Date) → Option (List (Option Date)) × Nat
  | 0, assignments =>
    match assignments.findIdx? (fun a => a.isNone) with
    | none => (some assignments, 0)
    | some _ => (none, 0)
  | fuel + 1, assignments =>
    match assignments.findIdx? (fun a => a.isNone) with
    | none => (some assignments, 0)
    | some i =>
      tryValsC (fun a => cs.all fun c => c.is_satisfied_by_assignment a)
        (recursive_csp_backtrackerC cs doms fuel)
        assignments i (doms.getD i [])

/-! ## Store model of the filtering phase

The pure embedding above cannot express Python object aliasing and mutation,
which the frame-effect claims are about.  `MemState` models the Python heap
restricted to the set objects the solver manipulates: `store` is the list of
allocated set objects and `ptrs` is the solver's `domains` list, holding
references (indices into `store`) instead of values.  `solve`'s line 67 makes
all `n` entries of `domains` point at the caller's single shared set, which
is modelled by `ptrs = replicate n 0` with the caller's set in slot 0. -/

/-- The Python heap (restricted to datetime-set objects) together with the
solver's `domains` list of references into it. -/
structure MemState where
  store : List (List Date)
  ptrs : List Nat

/-- The domains list as values: each reference dereferenced in the store. -/
def memDoms (st : MemState) : List (List Date) :=
  st.ptrs.map (fun p => st.store.getD p [])

/-- Store-level `node_consistency` outer loop (lines 145–154) over the
variable indices: iteration `i` reads the live domain object
`store[ptrs[i]]`, filters the snapshot object in slot `s0 + i`, writes the
filtered snapshot back to that slot, and repoints `domains[i]` at it
(`domains[current_index] = current_dom`).  On an exception the state at the
failed iteration is returned (the partially pruned snapshot slot is dropped,
which no other reference can observe). -/
def memNodeGo (cs : List DateConstraint) (s0 : Nat) :
    List Nat → MemState → Except PyErr Unit × MemState
  | [], st => (.ok (), st)
  | i :: rest, st =>
    let dom := st.store.getD (st.ptrs.getD i 0) []
    let cur := st.store.getD (s0 + i) []
    match dom.foldlM (fun c d => pruneVal i cs d c) cur with
    | .error e => (.error e, st)
    | .ok newCur =>
      memNodeGo cs s0 rest ⟨st.store.set (s0 + i) newCur, st.ptrs.set i (s0 + i)⟩

/-- Store-level `node_consistency` (lines 117–154): line 143 allocates one
snapshot copy `set(dom)` per entry of `domains` (slots `s0, s0+1, …`), then
the outer loop runs. -/
def memNode (st : MemState) (cs : List DateConstraint) : Except PyErr Unit × MemState :=
  let s0 := st.store.length
  let copies := st.ptrs.map (fun p => st.store.getD p [])
  memNodeGo cs s0 (List.range st.ptrs.length) ⟨st.store ++ copies, st.ptrs⟩

/-- Store-level `inconsistent_val_removal` (lines 265–294): `doms[TAIL]` and
`doms[HEAD]` dereference the reference list; the two local variables alias
the same set object exactly when the two references are equal. -/
def memRevise (st : MemState) (a : Arc) : Except PyErr (Bool × MemState) :=
  match getE st.ptrs a.TAIL with
  | .error e => .error e
  | .ok tp =>
    match getE st.ptrs a.HEAD with
    | .error e => .error e
    | .ok hp =>
      let tailDom := st.store.getD tp []
      let headDom := st.store.getD hp []
      let res := reviseLoop a.CONSTRAINT (tp == hp) headDom tailDom tailDom false
      .ok (res.2, ⟨st.store.set tp res.1, st.ptrs⟩)

/-- Store-level AC-3 worklist loop (lines 258–263). -/
def memAcLoop (cs : List DateConstraint) :
    Nat → MemState → List Arc → Except PyErr Unit × MemState
  | _, st, [] => (.ok (), st)
  | 0, st, _ :: _ => (.error .outOfFuel, st)
  | fuel + 1, st, a :: rest =>
    match memRevise st a with
    | .error e => (.error e, st)
    | .ok (removed, st') =>
      if removed then memAcLoop cs fuel st' (rest ++ reinsertArcs cs a.TAIL)
      else memAcLoop cs fuel st' rest

/-- Store-level `arc_consistency` (lines 211–296). -/
def memArc (st : MemState) (cs : List DateConstraint) : Except PyErr Unit × MemState :=
  memAcLoop cs (acFuel (memDoms st) cs) st (initArcs cs)

/-- The filtering phase of `solve` on a single shared candidate set `s`
(lines 66–69), at store level: `doms = [date_range for _ in range(n_meetings)]`
makes every `domains` entry reference the caller's set object (slot 0), then
node consistency and arc consistency run. -/
def memFilter (n : Nat) (s : List Date) (cs : List DateConstraint) :
    Except PyErr Unit × MemState :=
  let st0 : MemState := ⟨[s], List.replicate n 0⟩
  match memNode st0 cs with
  | (.error e, st) => (.error e, st)
  | (.ok _, st) =>
    match memArc st cs with
    | (.error e, st') => (.error e, st')
    | (.ok _, st') => (.ok (), st')

/-! ## Concrete instances used by the counterexamples -/

/-- Binary constraint between meetings 0 and 1 whose relation holds only for
the value pair `(0, 1)`. -/
def c1ex : DateConstraint := .binary 0 1 (fun a b => a == 0 && b == 1)

/-- Binary constraint between meetings 1 and 2 whose relation holds exactly
for value pairs with different values (on the two-value domain `{0, 1}`:
`(0, 1)` and `(1, 0)`). -/
def c2ex : DateConstraint := .binary 1 2 (fun a b => !(a == b))

/-- A constraint collection (iteration order `[c2ex, c1ex]`) on which the
worklist re-insertion rule of `ac_preprocessing` loses the reverse arc
`2 → 1`. -/
def csEx : List DateConstraint := [c2ex, c1ex]

/-- A unary constraint on meeting 1 rejecting every value. -/
def cRejectAll1 : DateConstraint := .unary 1 (fun _ => false)

/-- The number of unary constraints on variable `i` rejecting value `d`. -/
def countReject (i : Nat) (cs : List DateConstraint) (d : Date) : Nat :=
  (cs.filter fun c =>
    match c with
    | .unary l s => l == i && !(s d)
    | .binary _ _ _ => false).length

/-- Invariant relating a store state to the pure domains list after node
consistency: every variable `j` owns the private slot `1 + j`, whose content
is the pure domain of `j`, and slot 0 still holds the caller's set `s`. -/
def Rel (n : Nat) (s : List Date) (st : MemState) (doms : List (List Date)) : Prop :=
  st.store.length = 1 + n ∧ st.ptrs.length = n ∧ doms.length = n ∧
  st.store.getD 0 [] = s ∧ (∀ j, j < n → st.ptrs.getD j 0 = 1 + j) ∧
  (∀ j, j < n → st.store.getD (1 + j) [] = doms.getD j [])

/-! ## Helper lemmas -/

/-- Bind of a success value in `Except`. -/
theorem exceptBind_ok {α β : Type} (a : α) (f : α → Except PyErr β) :
    (Except.ok a >>= f) = f a := rfl

/-- Bind of an error value in `Except`. -/
theorem exceptBind_error {α β : Type} (e : PyErr) (f : α → Except PyErr β) :
    ((Except.error e : Except PyErr α) >>= f) = .error e := rfl

/-- A constraint is vacuously satisfied by the empty assignment vector. -/
theorem is_satisfied_by_assignment_nil (c : DateConstraint) :
    c.is_satisfied_by_assignment [] = true := by
  cases c <;> simp [DateConstraint.is_satisfied_by_assignment, List.getD]

/-- If every constraint is unary, the initial AC-3 worklist is empty. -/
theorem initArcs_eq_nil_of_unary {cs : List DateConstraint}
    (h : ∀ c ∈ cs, c.arity = 1) : initArcs cs = [] := by
  induction cs with
  | nil => rfl
  | cons c rest ih =>
    have hc := h c (List.mem_cons_self c rest)
    cases c with
    | unary l s =>
      simpa [initArcs] using ih (fun c hc => h c (List.mem_cons_of_mem _ hc))
    | binary l r s => simp [DateConstraint.arity] at hc

end CspSolver

namespace CspSolver

/-! ## Claim theorems: input-form and construction errors (C2, C3, C4, C8, C10) -/

/-- C2: the claim states that whenever some full assignment drawn from the
original domain product satisfies every constraint, `solve` returns a
satisfying assignment rather than a failure signal.  This fails on the
documented list-of-candidate-sets input form: with `n_meetings = 1`,
`date_range = [{5}]` and no constraints, the assignment `[5]` satisfies
every constraint, yet line 67 makes each "domain" the list object itself,
so `node_consistency`'s snapshot `set(dom)` (line 143) hashes the inner
`set` and raises `TypeError` instead of returning a solution. -/
theorem solve_raises_on_listed_domains_with_solution :
    solve 1 (.multi [[5]]) [] = .error .typeErr ∧
    (5 : Date) ∈ ([5] : List Date) ∧
    (∀ c ∈ ([] : List DateConstraint), c.is_satisfied_by_assignment [some 5] = true) := by
  refine ⟨rfl, by simp, by simp⟩

/-- C3: the claim states that the entry point accepts a list of `n` distinct
candidate sets and searches each variable's own set.  In the code, line 67
(`doms = [date_range for _ in range(n_meetings)]`) makes every entry of
`doms` the list object itself instead of the per-variable sets, and
`node_consistency`'s snapshot `set(dom)` (line 143) then raises `TypeError`
(a `set` is unhashable), so the list input form never returns a schedule. -/
theorem solve_raises_on_list_of_candidate_sets :
    solve 2 (.multi [[0], [1]]) [] = .error .typeErr := rfl

/-- C4: the claim states `node_consistency` completes normally on every
input, including when two distinct unary constraints on the same variable
both reject the same value.  In the code the inner constraint loop
(lines 148–153) has no `break`, so the second rejecting constraint calls
`current_dom.remove(date)` on a value that was already removed and raises
`KeyError`.  Failing input: `domains = [{7}]` and two unary constraints on
variable 0 that both reject 7. -/
theorem node_consistency_double_rejection_keyerror :
    node_consistency [[7]]
      [.unary 0 (fun _ => false), .unary 0 (fun d => d == 3)] = .error .keyErr := rfl

/-- C8: constructing an `Arc` from a constraint that is not binary (its
`R_VAL` is not an integer variable index, i.e. a unary constraint) raises
`ValueError` immediately (line 195) and never yields an `Arc`. -/
theorem arc_from_unary_fails (c : DateConstraint) (h : c.arity = 1) :
    Arc.init c = .error .valueErr := by
  cases c with
  | unary l s => rfl
  | binary l r s => simp [DateConstraint.arity] at h

/-- Witness for `arc_from_unary_fails` at a concrete unary constraint. -/
theorem arc_from_unary_fails_witness :
    (DateConstraint.unary 0 (fun _ => true)).arity = 1 ∧
    Arc.init (DateConstraint.unary 0 (fun _ => true)) = .error .valueErr :=
  ⟨rfl, arc_from_unary_fails (DateConstraint.unary 0 (fun _ => true)) rfl⟩

/-- C10 counterexample: the claim states that `solve` with `n_meetings = 0`
returns the empty schedule regardless of the constraint collection.  With a
binary constraint present, `ac_preprocessing` still seeds arcs for it and
`inconsistent_val_removal` indexes `doms[TAIL]` into the empty domains list
(line 279), raising `IndexError` instead of returning `[]`. -/
theorem solve_zero_meetings_binary_raises :
    solve 0 (.single []) [.binary 0 1 (fun _ _ => true)] = .error .indexErr := rfl

/-- C10 (amended): `solve` with `n_meetings = 0` returns the empty schedule
(`.ok (some [])`) for either input form and any candidate sets, provided the
constraint collection contains no binary constraint (every constraint has
arity 1); with a binary constraint it raises `IndexError` instead (see
`solve_zero_meetings_binary_raises`). -/
theorem solve_zero_meetings_ok (dr : DateRange) (cs : List DateConstraint)
    (h : ∀ c ∈ cs, c.arity = 1) :
    solve 0 dr cs = .ok (some []) := by
  have harcs : initArcs cs = [] := initArcs_eq_nil_of_unary h
  have hcb : csp_backtracker 0 [] cs = .ok (some []) := by
    simp only [csp_backtracker, node_consistency, nodeAux, arc_consistency, ac_preprocessing,
      harcs, acLoop, recursive_csp_backtracker, List.findIdx?, List.replicate]
    rfl
  cases dr with
  | single s => simpa [solve, List.replicate] using hcb
  | multi l => simpa [solve] using hcb

/-- Witness for `solve_zero_meetings_ok` at a concrete input. -/
theorem solve_zero_meetings_ok_witness :
    (∀ c ∈ [DateConstraint.unary 0 (fun _ => false)], c.arity = 1) ∧
    solve 0 (.single [3]) [DateConstraint.unary 0 (fun _ => false)] = .ok (some []) :=
  ⟨by simp [DateConstraint.arity],
   solve_zero_meetings_ok (.single [3]) [DateConstraint.unary 0 (fun _ => false)]
     (by simp [DateConstraint.arity])⟩

/-! ## Claim theorems: the AC-3 re-insertion rule (C5) and idempotence (C9) -/

/-- C5 counterexample: on `csEx`, processing the reverse arc `1 → 0` of
`c1ex` removes value 0 from variable 1's domain, `Arc(c2ex.get_reverse)`
(the arc `2 → 1`) points into the revised variable 1 and was part of the
initial worklist, yet it is not among the re-inserted arcs — the
re-insertion loop (lines 261–263) only consults original constraints'
`R_VAL`.  Consequently value 1 survives in variable 2's domain with no
support in variable 1's final domain `[1]`. -/
theorem reinsertion_misses_reverse_arc :
    inconsistent_val_removal [[0], [0, 1], [0, 1]] ⟨c1ex.get_reverse, 1, 0⟩
        = .ok (true, [[0], [1], [0, 1]]) ∧
    (⟨c2ex.get_reverse, 2, 1⟩ : Arc).HEAD = 1 ∧
    (⟨c2ex.get_reverse, 2, 1⟩ : Arc) ∈ initArcs csEx ∧
    (⟨c2ex.get_reverse, 2, 1⟩ : Arc) ∉ reinsertArcs csEx 1 ∧
    arc_consistency [[0], [0, 1], [0, 1]] csEx = .ok [[0], [1], [0, 1]] ∧
    ([1].any fun h => c2ex.get_reverse.is_satisfied_by_values2 1 h) = false := by
  refine ⟨rfl, rfl, ?_, ?_, rfl, rfl⟩
  · simp [initArcs, csEx, c2ex]
  · simp [reinsertArcs, csEx, c1ex, c2ex, DateConstraint.get_reverse]

/-- C5 (amended): when a revision removes at least one value from the tail
variable `t` of an arc, the worklist is extended with exactly the forward
arcs `Arc(c)` of the original binary constraints `c` whose `R_VAL` equals
`t`; arcs derived from reversed constraints are not re-inserted (hence not
every arc pointing into `t` returns to the worklist, see
`reinsertion_misses_reverse_arc`). -/
theorem acLoop_reinserts_forward_arcs_only (cs : List DateConstraint) :
    (∀ fuel doms doms' a rest,
      inconsistent_val_removal doms a = .ok (true, doms') →
      acLoop cs (fuel + 1) doms (a :: rest)
        = acLoop cs fuel doms' (rest ++ reinsertArcs cs a.TAIL)) ∧
    (∀ t a, a ∈ reinsertArcs cs t ↔
      ∃ l s, DateConstraint.binary l t s ∈ cs ∧ a = ⟨.binary l t s, l, t⟩) := by
  constructor
  · intro fuel doms doms' a rest h
    simp [acLoop, h]
  · intro t a
    constructor
    · intro h
      rw [reinsertArcs, List.mem_filterMap] at h
      obtain ⟨c, hc, hfc⟩ := h
      cases c with
      | unary l s => simp at hfc
      | binary l r s =>
        by_cases hr : r = t
        · subst hr
          simp only [beq_self_eq_true, if_true, Option.some.injEq] at hfc
          exact ⟨l, s, hc, hfc.symm⟩
        · simp [hr] at hfc
    · rintro ⟨l, s, hmem, rfl⟩
      rw [reinsertArcs, List.mem_filterMap]
      exact ⟨.binary l t s, hmem, by simp⟩

/-- Witness for `acLoop_reinserts_forward_arcs_only`: the step equation at a
concrete removing revision, and a concrete forward arc characterized as
re-inserted. -/
theorem acLoop_reinserts_forward_arcs_only_witness :
    acLoop csEx (10 + 1) [[0], [0, 1], [0, 1]] [⟨c1ex.get_reverse, 1, 0⟩]
        = acLoop csEx 10 [[0], [1], [0, 1]] ([] ++ reinsertArcs csEx 1) ∧
    (⟨c1ex, 0, 1⟩ : Arc) ∈ reinsertArcs csEx 1 := by
  constructor
  · exact (acLoop_reinserts_forward_arcs_only csEx).1 10 [[0], [0, 1], [0, 1]]
      [[0], [1], [0, 1]] ⟨c1ex.get_reverse, 1, 0⟩ [] rfl
  · exact ((acLoop_reinserts_forward_arcs_only csEx).2 1 ⟨c1ex, 0, 1⟩).mpr
      ⟨0, (fun a b => a == 0 && b == 1), by simp [csEx, c1ex], rfl⟩

/-- C9 counterexample: arc consistency is not idempotent.  On `csEx` with
domains `[[0], [0,1], [0,1]]`, the first run returns `[[0], [1], [0,1]]`
(the missed reverse arc `2 → 1` leaves the unsupported value 1 in variable
2's domain), and a second run on that output removes it, returning
`[[0], [1], [0]]`. -/
theorem arc_consistency_not_idempotent :
    arc_consistency [[0], [0, 1], [0, 1]] csEx = .ok [[0], [1], [0, 1]] ∧
    arc_consistency [[0], [1], [0, 1]] csEx = .ok [[0], [1], [0]] ∧
    ([[0], [1], [0, 1]] : List (List Date)) ≠ [[0], [1], [0]] :=
  ⟨rfl, rfl, by simp⟩

end CspSolver

namespace CspSolver

/-! ## Node-consistency idempotence (C9, amended)

The key quantity is, for a variable `i` and a value `d`, the number of unary
constraints on `i` that reject `d` (`countReject`).  A successful run of
`node_consistency` removes, for each occurrence of a value in the domain,
one occurrence per rejecting constraint; a successful removal requires the
value to still be present, so a value that survives has no rejecting
constraint at all, and a second run removes nothing. -/

theorem removeE_ok {s : List Date} {d : Date} {s' : List Date}
    (h : removeE s d = .ok s') : s' = s.erase d ∧ d ∈ s := by
  by_cases hd : d ∈ s
  · rw [removeE, if_pos hd] at h
    exact ⟨(Except.ok.inj h).symm, hd⟩
  · rw [removeE, if_neg hd] at h
    exact absurd h (by simp)

/-- Unfolding of `pruneVal` on a leading unary constraint. -/
theorem pruneVal_cons_unary (i l : Nat) (s : Date → Bool) (rest : List DateConstraint)
    (d : Date) (cur : List Date) :
    pruneVal i (.unary l s :: rest) d cur
      = (if l == i && !(s d) then removeE cur d else Except.ok cur) >>= fun acc =>
          pruneVal i rest d acc := by
  rw [pruneVal, List.foldlM_cons]
  rfl

/-- Unfolding of `pruneVal` on a leading binary constraint. -/
theorem pruneVal_cons_binary (i l r : Nat) (s : Date → Date → Bool)
    (rest : List DateConstraint) (d : Date) (cur : List Date) :
    pruneVal i (.binary l r s :: rest) d cur = pruneVal i rest d cur := by
  rw [pruneVal, List.foldlM_cons]
  rfl

/-- Unfolding of `countReject` on a leading unary constraint. -/
theorem countReject_cons_unary (i l : Nat) (s : Date → Bool) (rest : List DateConstraint)
    (d : Date) :
    countReject i (.unary l s :: rest) d
      = (if l == i && !(s d) then 1 else 0) + countReject i rest d := by
  rw [countReject, countReject, List.filter_cons]
  by_cases hg : (l == i && !(s d)) = true
  · simp [hg, Nat.add_comm]
  · simp only [Bool.not_eq_true] at hg
    simp [hg]

/-- Unfolding of `countReject` on a leading binary constraint. -/
theorem countReject_cons_binary (i l r : Nat) (s : Date → Date → Bool)
    (rest : List DateConstraint) (d : Date) :
    countReject i (.binary l r s :: rest) d = countReject i rest d := by
  rw [countReject, countReject, List.filter_cons]
  simp

/-- Effect of the inner constraint loop on value multiplicities: processing
value `d` for variable `i` decreases the multiplicity of `d` by the number
of rejecting constraints and leaves all other values untouched. -/
theorem pruneVal_count {i : Nat} {cs : List DateConstraint} {d : Date}
    {cur cur' : List Date} (h : pruneVal i cs d cur = .ok cur') :
    ∀ e, cur'.count e = cur.count e - (if e = d then countReject i cs d else 0) := by
  induction cs generalizing cur with
  | nil =>
    cases h
    intro e
    simp [countReject]
  | cons c rest ih =>
    cases c with
    | binary l r s =>
      rw [pruneVal_cons_binary] at h
      intro e
      rw [ih h e, countReject_cons_binary]
    | unary l s =>
      rw [pruneVal_cons_unary] at h
      by_cases hg : (l == i && !(s d)) = true
      · rw [if_pos hg] at h
        cases hr : removeE cur d with
        | error e =>
          rw [hr] at h
          exact absurd h (by simp [Bind.bind, Except.bind])
        | ok cur₁ =>
          rw [hr] at h
          obtain ⟨rfl, hmem⟩ := removeE_ok hr
          have h' : pruneVal i rest d (cur.erase d) = .ok cur' := h
          intro e
          have hrec := ih h' e
          by_cases he : e = d
          · subst he
            have hrec2 : cur'.count e = cur.count e - 1 - countReject i rest e := by
              rw [hrec, if_pos rfl, List.count_erase_self]
            rw [hrec2, if_pos rfl, countReject_cons_unary, if_pos hg]
            omega
          · rw [hrec, if_neg he, if_neg he, Nat.sub_zero, Nat.sub_zero,
              List.count_erase_of_ne he]
      · rw [if_neg hg] at h
        have h' : pruneVal i rest d cur = .ok cur' := h
        intro e
        have hrec := ih h' e
        by_cases he : e = d
        · subst he
          rw [hrec, if_pos rfl, if_pos rfl, countReject_cons_unary,
            if_neg hg, Nat.zero_add]
        · rw [hrec, if_neg he, if_neg he]


/-- Effect of the whole per-variable loop on multiplicities: each occurrence
of a value in the iterated snapshot removes `countReject` occurrences from
the live domain. -/
theorem nodeFold_count {i : Nat} {cs : List DateConstraint} :
    ∀ {todo cur res : List Date},
      todo.foldlM (fun cur d => pruneVal i cs d cur) cur = .ok res →
      ∀ e, res.count e = cur.count e - todo.count e * countReject i cs e := by
  intro todo
  induction todo with
  | nil =>
    intro cur res h e
    cases h
    simp
  | cons d ts ih =>
    intro cur res h e
    rw [List.foldlM_cons] at h
    cases hp : pruneVal i cs d cur with
    | error err =>
      rw [hp, exceptBind_error] at h
      exact absurd h (by simp)
    | ok cur₁ =>
      rw [hp, exceptBind_ok] at h
      have hrec := ih h e
      have hstep := pruneVal_count hp e
      by_cases he : e = d
      · subst he
        rw [if_pos rfl] at hstep
        rw [hrec, hstep, List.count_cons_self, Nat.sub_sub, Nat.succ_mul,
          Nat.add_comm (ts.count e * countReject i cs e)]
      · rw [if_neg he] at hstep
        rw [hrec, hstep, Nat.sub_zero, List.count_cons_of_ne he]

/-- A value with no rejecting constraint passes the inner loop unchanged. -/
theorem pruneVal_ok_of_no_reject {i : Nat} {cs : List DateConstraint} {d : Date}
    (h : countReject i cs d = 0) (cur : List Date) : pruneVal i cs d cur = .ok cur := by
  induction cs generalizing cur with
  | nil => rfl
  | cons c rest ih =>
    cases c with
    | binary l r s =>
      rw [pruneVal_cons_binary]
      exact ih (by rwa [countReject_cons_binary] at h) cur
    | unary l s =>
      rw [countReject_cons_unary] at h
      by_cases hg : (l == i && !(s d)) = true
      · rw [if_pos hg] at h
        exact absurd h (by simp)
      · rw [if_neg hg] at h
        rw [pruneVal_cons_unary, if_neg hg, exceptBind_ok]
        exact ih (by simpa using h) cur

/-- A domain all of whose values have no rejecting constraint passes the
whole per-variable loop unchanged. -/
theorem nodeFold_ok_of_no_reject {i : Nat} {cs : List DateConstraint} :
    ∀ {todo : List Date} (cur : List Date), (∀ d ∈ todo, countReject i cs d = 0) →
      todo.foldlM (fun cur d => pruneVal i cs d cur) cur = .ok cur := by
  intro todo
  induction todo with
  | nil => intro cur _; rfl
  | cons d ts ih =>
    intro cur h
    rw [List.foldlM_cons, pruneVal_ok_of_no_reject (h d (List.mem_cons_self d ts)) cur,
      exceptBind_ok]
    exact ih cur (fun d hd => h d (List.mem_cons_of_mem _ hd))

/-- Every value surviving a successful per-variable filtering run has no
rejecting unary constraint (a rejected value that survived would have
required more successful removals than its multiplicity allows). -/
theorem nodeVar_mem_no_reject {i : Nat} {dom : List Date} {cs : List DateConstraint}
    {res : List Date} (h : nodeVar i dom cs = .ok res) :
    ∀ e ∈ res, countReject i cs e = 0 := by
  intro e he
  have hc := @nodeFold_count i cs dom dom res h e
  by_contra hne
  have h1 : 1 ≤ countReject i cs e := Nat.one_le_iff_ne_zero.mpr hne
  have hge : dom.count e ≤ dom.count e * countReject i cs e := by
    calc dom.count e = dom.count e * 1 := (Nat.mul_one _).symm
    _ ≤ dom.count e * countReject i cs e := Nat.mul_le_mul_left _ h1
  have hzero : res.count e = 0 := by
    rw [hc]
    exact Nat.sub_eq_zero_of_le hge
  have := List.count_pos_iff.mpr he
  omega

/-- Per-variable idempotence: re-filtering an already filtered domain is a
no-op. -/
theorem nodeVar_idem {i : Nat} {dom : List Date} {cs : List DateConstraint}
    {res : List Date} (h : nodeVar i dom cs = .ok res) : nodeVar i res cs = .ok res := by
  rw [nodeVar]
  exact nodeFold_ok_of_no_reject res (nodeVar_mem_no_reject h)

/-- Idempotence of the outer loop of `node_consistency`. -/
theorem nodeAux_idem {cs : List DateConstraint} :
    ∀ {doms : List (List Date)} {i : Nat} {ds : List (List Date)},
      nodeAux cs i doms = .ok ds → nodeAux cs i ds = .ok ds := by
  intro doms
  induction doms with
  | nil =>
    intro i ds h
    cases h
    rfl
  | cons dom rest ih =>
    intro i ds h
    rw [nodeAux] at h
    cases hv : nodeVar i dom cs with
    | error err =>
      rw [hv, exceptBind_error] at h
      exact absurd h (by simp)
    | ok d =>
      rw [hv, exceptBind_ok] at h
      cases hr : nodeAux cs (i + 1) rest with
      | error err =>
        rw [hr, exceptBind_error] at h
        exact absurd h (by simp)
      | ok rest' =>
        rw [hr, exceptBind_ok] at h
        cases h
        rw [nodeAux, nodeVar_idem hv, exceptBind_ok, ih hr, exceptBind_ok]
        rfl

/-- C9 (amended): node consistency is idempotent — whenever a first run of
`node_consistency` completes normally, an immediate second run on its output
removes nothing further and returns the domains exactly as the first run
left them.  (Arc consistency, by contrast, is not idempotent: see
`arc_consistency_not_idempotent`.) -/
theorem node_consistency_idempotent {doms ds : List (List Date)}
    {cs : List DateConstraint} (h : node_consistency doms cs = .ok ds) :
    node_consistency ds cs = .ok ds :=
  nodeAux_idem h

/-- Witness for `node_consistency_idempotent` at a concrete input. -/
theorem node_consistency_idempotent_witness :
    node_consistency [[0, 1]] [DateConstraint.unary 0 (fun d => d == 0)] = .ok [[0]] ∧
    node_consistency [[0]] [DateConstraint.unary 0 (fun d => d == 0)] = .ok [[0]] :=
  ⟨rfl, @node_consistency_idempotent [[0, 1]] [[0]] [DateConstraint.unary 0 (fun d => d == 0)] rfl⟩

/-! ## Soundness of the backtracking search (C1) -/

/-- Pure in `Except` is `ok`. -/
theorem exceptPure_eq {α : Type} (a : α) : (pure a : Except PyErr α) = .ok a := rfl

/-- If the candidate-value loop returns a result, the result came from a
recursion on the assignment extended at slot `i` with some domain value that
passed the constraint check. -/
theorem tryVals_eq_some {check : List (Option Date) → Bool}
    {recurse : List (Option Date) → Option (List (Option Date))}
    {as : List (Option Date)} {i : Nat} :
    ∀ {vals : List Date} {r}, tryVals check recurse as i vals = some r →
      ∃ d, d ∈ vals ∧ check (as.set i (some d)) = true ∧
        recurse (as.set i (some d)) = some r ∧ r.isEmpty = false := by
  intro vals
  induction vals with
  | nil => intro r h; exact absurd h (by simp [tryVals])
  | cons d rest ih =>
    intro r h
    simp only [tryVals] at h
    by_cases hc : check (as.set i (some d)) = true
    · simp only [hc, if_true] at h
      cases hr : recurse (as.set i (some d)) with
      | none =>
        simp only [hr] at h
        obtain ⟨d', h1, h2, h3, h4⟩ := ih h
        exact ⟨d', List.mem_cons_of_mem _ h1, h2, h3, h4⟩
      | some r' =>
        simp only [hr] at h
        by_cases he : r'.isEmpty = true
        · simp only [he, if_true] at h
          obtain ⟨d', h1, h2, h3, h4⟩ := ih h
          exact ⟨d', List.mem_cons_of_mem _ h1, h2, h3, h4⟩
        · simp only [he, if_false] at h
          cases h
          exact ⟨d, List.mem_cons_self d rest, hc, hr, by simpa using he⟩
    · simp only [hc, if_false] at h
      obtain ⟨d', h1, h2, h3, h4⟩ := ih h
      exact ⟨d', List.mem_cons_of_mem _ h1, h2, h3, h4⟩

/-- The search preserves the length of the assignment vector. -/
theorem backtracker_some_length {cs : List DateConstraint} {doms : List (List Date)} :
    ∀ {fuel : Nat} {as r : List (Option Date)},
      recursive_csp_backtracker cs doms fuel as = some r → r.length = as.length := by
  intro fuel
  induction fuel with
  | zero =>
    intro as r h
    simp only [recursive_csp_backtracker] at h
    cases hf : as.findIdx? (fun a => a.isNone) with
    | none => simp only [hf] at h; cases h; rfl
    | some i => simp only [hf] at h; exact Option.noConfusion h
  | succ fuel ih =>
    intro as r h
    simp only [recursive_csp_backtracker] at h
    cases hf : as.findIdx? (fun a => a.isNone) with
    | none => simp only [hf] at h; cases h; rfl
    | some i =>
      simp only [hf] at h
      obtain ⟨d, _, _, h3, _⟩ := tryVals_eq_some h
      rw [ih h3, List.length_set]

/-- A successful search returns a fully assigned vector. -/
theorem backtracker_some_isSome {cs : List DateConstraint} {doms : List (List Date)} :
    ∀ {fuel : Nat} {as r : List (Option Date)},
      recursive_csp_backtracker cs doms fuel as = some r → ∀ x ∈ r, x.isSome = true := by
  intro fuel
  induction fuel with
  | zero =>
    intro as r h
    simp only [recursive_csp_backtracker] at h
    cases hf : as.findIdx? (fun a => a.isNone) with
    | none =>
      simp only [hf] at h
      cases h
      intro x hx
      have hfalse := List.findIdx?_eq_none_iff.mp hf x hx
      cases x with
      | none => simp at hfalse
      | some v => rfl
    | some i => simp only [hf] at h; exact Option.noConfusion h
  | succ fuel ih =>
    intro as r h
    simp only [recursive_csp_backtracker] at h
    cases hf : as.findIdx? (fun a => a.isNone) with
    | none =>
      simp only [hf] at h
      cases h
      intro x hx
      have hfalse := List.findIdx?_eq_none_iff.mp hf x hx
      cases x with
      | none => simp at hfalse
      | some v => rfl
    | some i =>
      simp only [hf] at h
      obtain ⟨d, _, _, h3, _⟩ := tryVals_eq_some h
      exact ih h3

/-- A successful search returns either a constraint-satisfying vector or the
input vector unchanged (the latter only when the input was already fully
assigned). -/
theorem backtracker_some_sat {cs : List DateConstraint} {doms : List (List Date)} :
    ∀ {fuel : Nat} {as r : List (Option Date)},
      recursive_csp_backtracker cs doms fuel as = some r →
      (∀ c ∈ cs, c.is_satisfied_by_assignment r = true) ∨ r = as := by
  intro fuel
  induction fuel with
  | zero =>
    intro as r h
    simp only [recursive_csp_backtracker] at h
    cases hf : as.findIdx? (fun a => a.isNone) with
    | none => simp only [hf] at h; cases h; exact Or.inr rfl
    | some i => simp only [hf] at h; exact Option.noConfusion h
  | succ fuel ih =>
    intro as r h
    simp only [recursive_csp_backtracker] at h
    cases hf : as.findIdx? (fun a => a.isNone) with
    | none => simp only [hf] at h; cases h; exact Or.inr rfl
    | some i =>
      simp only [hf] at h
      obtain ⟨d, _, h2, h3, _⟩ := tryVals_eq_some h
      rcases ih h3 with hsat | heq
      · exact Or.inl hsat
      · subst heq
        exact Or.inl (fun c hc => List.all_eq_true.mp h2 c hc)

/-- A successful search gives every initially unassigned variable a value
from its domain; in particular every initially unassigned variable's domain
is non-empty. -/
theorem backtracker_some_domain_nonempty {cs : List DateConstraint} {doms : List (List Date)} :
    ∀ {fuel : Nat} {as r : List (Option Date)},
      recursive_csp_backtracker cs doms fuel as = some r →
      ∀ j, j < as.length → as.getD j (some 0) = none → doms.getD j [] ≠ [] := by
  intro fuel
  induction fuel with
  | zero =>
    intro as r h j hj hnone
    simp only [recursive_csp_backtracker] at h
    cases hf : as.findIdx? (fun a => a.isNone) with
    | none =>
      have hmem : as.getD j (some 0) ∈ as := by
        rw [List.getD_eq_getElem _ _ hj]
        exact List.getElem_mem hj
      rw [hnone] at hmem
      have := List.findIdx?_eq_none_iff.mp hf none hmem
      simp at this
    | some i => simp only [hf] at h; exact Option.noConfusion h
  | succ fuel ih =>
    intro as r h j hj hnone
    simp only [recursive_csp_backtracker] at h
    cases hf : as.findIdx? (fun a => a.isNone) with
    | none =>
      have hmem : as.getD j (some 0) ∈ as := by
        rw [List.getD_eq_getElem _ _ hj]
        exact List.getElem_mem hj
      rw [hnone] at hmem
      have := List.findIdx?_eq_none_iff.mp hf none hmem
      simp at this
    | some i =>
      simp only [hf] at h
      obtain ⟨d, hd, _, h3, _⟩ := tryVals_eq_some h
      by_cases hij : j = i
      · subst hij
        intro hempty
        rw [hempty] at hd
        exact absurd hd (List.not_mem_nil d)
      · have hj' : j < (as.set i (some d)).length := by rwa [List.length_set]
        have hnone' : (as.set i (some d)).getD j (some 0) = none := by
          rw [List.getD_eq_getElem?_getD, List.getElem?_set_ne (fun h => hij h.symm)]
          rwa [List.getD_eq_getElem?_getD] at hnone
        exact ih h3 j hj' hnone'

/-- Destructuring a successful `csp_backtracker` run into its filtering and
search phases. -/
theorem csp_backtracker_ok {vars : Nat} {doms0 : List (List Date)}
    {cs : List DateConstraint} {res : Option (List (Option Date))}
    (h : csp_backtracker vars doms0 cs = .ok res) :
    ∃ d1 d2, node_consistency doms0 cs = .ok d1 ∧ arc_consistency d1 cs = .ok d2 ∧
      res = recursive_csp_backtracker cs d2 vars (List.replicate vars none) := by
  cases hn : node_consistency doms0 cs with
  | error e =>
    rw [csp_backtracker, hn, exceptBind_error] at h
    exact absurd h (by simp)
  | ok d1 =>
    rw [csp_backtracker, hn, exceptBind_ok] at h
    cases ha : arc_consistency d1 cs with
    | error e =>
      rw [ha, exceptBind_error] at h
      exact absurd h (by simp)
    | ok d2 =>
      rw [ha, exceptBind_ok, exceptPure_eq] at h
      exact ⟨d1, d2, rfl, ha, (Except.ok.inj h).symm⟩

/-- C1: soundness of `solve` — whenever `solve` returns an assignment (for
any meeting count, either candidate-set input form, and any constraint
collection), the assignment has exactly `n` slots, every slot is filled, and
evaluating every constraint's `is_satisfied_by_assignment` over it yields
true. -/
theorem solve_sound (n : Nat) (dr : DateRange) (cs : List DateConstraint)
    (r : List (Option Date)) (h : solve n dr cs = .ok (some r)) :
    r.length = n ∧ (∀ x ∈ r, x.isSome = true) ∧
      ∀ c ∈ cs, c.is_satisfied_by_assignment r = true := by
  have hex : ∃ doms0, csp_backtracker n doms0 cs = .ok (some r) := by
    cases dr with
    | single s => exact ⟨List.replicate n s, h⟩
    | multi l =>
      by_cases h0 : n = 0
      · subst h0
        exact ⟨[], by simpa [solve] using h⟩
      · by_cases hl : l.isEmpty
        · exact ⟨List.replicate n [], by simpa [solve, h0, hl] using h⟩
        · rw [solve, if_neg h0, if_neg hl] at h
          exact absurd h (by simp)
  obtain ⟨doms0, hcb⟩ := hex
  obtain ⟨d1, d2, hn, ha, hres⟩ := csp_backtracker_ok hcb
  have hrec : recursive_csp_backtracker cs d2 n (List.replicate n none) = some r := hres.symm
  refine ⟨?_, backtracker_some_isSome hrec, ?_⟩
  · rw [backtracker_some_length hrec, List.length_replicate]
  · rcases backtracker_some_sat hrec with hsat | heq
    · exact hsat
    · cases n with
      | zero =>
        intro c hc
        rw [List.replicate] at heq
        rw [heq]
        exact is_satisfied_by_assignment_nil c
      | succ m =>
        exfalso
        have hnone : (none : Option Date) ∈ r := by
          rw [heq]
          exact List.mem_replicate.mpr ⟨Nat.succ_ne_zero m, rfl⟩
        have := backtracker_some_isSome hrec none hnone
        simp at this

/-- Witness for `solve_sound` at a concrete satisfiable input. -/
theorem solve_sound_witness :
    solve 1 (.single [5]) [] = .ok (some [some 5]) ∧
    (([some 5] : List (Option Date)).length = 1 ∧
      (∀ x ∈ ([some 5] : List (Option Date)), x.isSome = true) ∧
      ∀ c ∈ ([] : List DateConstraint), c.is_satisfied_by_assignment [some 5] = true) :=
  ⟨rfl, solve_sound 1 (.single [5]) [] [some 5] rfl⟩

/-! ## Early failure on emptied domains (C6) -/

/-- The counting clone computes the same search result as
`recursive_csp_backtracker` (its first component). -/
theorem tryValsC_fst {check : List (Option Date) → Bool}
    {recurseC : List (Option Date) → Option (List (Option Date)) × Nat}
    {recurse : List (Option Date) → Option (List (Option Date))}
    (hr : ∀ a, (recurseC a).1 = recurse a) (as : List (Option Date)) (i : Nat) :
    ∀ vals, (tryValsC check recurseC as i vals).1 = tryVals check recurse as i vals := by
  intro vals
  induction vals with
  | nil => rfl
  | cons d rest ih =>
    by_cases hc : check (as.set i (some d)) = true
    · cases hp : recurseC (as.set i (some d)) with
      | mk p k =>
        have h1 : recurse (as.set i (some d)) = p := by rw [← hr, hp]
        cases p with
        | none => simp only [tryValsC, tryVals, hc, if_true, hp, h1]; exact ih
        | some r =>
          by_cases he : r.isEmpty = true
          · simp only [tryValsC, tryVals, hc, if_true, hp, h1, he]; exact ih
          · simp only [tryValsC, tryVals, hc, if_true, hp, h1, he, if_false]
            rfl
    · simp only [tryValsC, tryVals, hc, if_false]; exact ih

/-- The clone `recursive_csp_backtrackerC` refines `recursive_csp_backtracker`: its
first component is the very search result; its second merely counts the
tentative assignments line 97 performs. -/
theorem backtrackerC_fst (cs : List DateConstraint) (doms : List (List Date)) :
    ∀ (fuel : Nat) (as : List (Option Date)),
      (recursive_csp_backtrackerC cs doms fuel as).1
        = recursive_csp_backtracker cs doms fuel as := by
  intro fuel
  induction fuel with
  | zero =>
    intro as
    simp only [recursive_csp_backtrackerC, recursive_csp_backtracker]
    cases hf : as.findIdx? (fun a => a.isNone) <;> rfl
  | succ fuel ih =>
    intro as
    simp only [recursive_csp_backtrackerC, recursive_csp_backtracker]
    cases hf : as.findIdx? (fun a => a.isNone) with
    | none => rfl
    | some i => exact tryValsC_fst ih as i _

/-- C6 counterexample: on an input where filtering empties variable 1's
domain (but not variable 0's), `solve` does return the no-solution signal,
but only after the search tentatively assigns a value to variable 0 — the
claim's "no tentative assignment of any value to any variable is made" is
false.  The count of tentative assignments (line 97) performed by the exact
search the solver runs is 1, not 0. -/
theorem emptied_domain_still_assigns_tentatively :
    node_consistency (List.replicate 2 [0]) [cRejectAll1] = .ok [[0], []] ∧
    arc_consistency [[0], []] [cRejectAll1] = .ok [[0], []] ∧
    solve 2 (.single [0]) [cRejectAll1] = .ok none ∧
    (recursive_csp_backtrackerC [cRejectAll1] [[0], []] 2 (List.replicate 2 none)).2 = 1 :=
  ⟨rfl, rfl, rfl, rfl⟩

/-- C6 (amended): if the filtering phase completes normally and leaves some
variable's domain empty, `solve` returns the explicit no-solution signal
`.ok none` — unsatisfiability is signaled by the returned `None`, not by an
exception (though the search may still tentatively assign variables whose
index precedes the emptied domain's, see
`emptied_domain_still_assigns_tentatively`). -/
theorem solve_none_on_emptied_domain (n : Nat) (s : List Date) (cs : List DateConstraint)
    (d1 d2 : List (List Date)) (i : Nat)
    (h1 : node_consistency (List.replicate n s) cs = .ok d1)
    (h2 : arc_consistency d1 cs = .ok d2)
    (hi : i < n) (he : d2.getD i [] = []) :
    solve n (.single s) cs = .ok none := by
  rw [solve, csp_backtracker, h1, exceptBind_ok, h2, exceptBind_ok, exceptPure_eq]
  cases hres : recursive_csp_backtracker cs d2 n (List.replicate n none) with
  | none => rfl
  | some r =>
    exfalso
    have hj : i < (List.replicate n (none : Option Date)).length := by
      rwa [List.length_replicate]
    have hnone : (List.replicate n (none : Option Date)).getD i (some 0) = none := by
      rw [List.getD_eq_getElem _ _ hj]
      simp
    exact backtracker_some_domain_nonempty hres i hj hnone he

/-- Witness for `solve_none_on_emptied_domain` at a concrete input. -/
theorem solve_none_on_emptied_domain_witness :
    solve 2 (.single [1]) [cRejectAll1] = .ok none :=
  solve_none_on_emptied_domain 2 [1] [cRejectAll1] [[1], []] [[1], []] 1 rfl rfl
    (by omega) rfl

/-! ## The filtering phase never corrupts the caller's set (C7)

The lemmas below relate the store-level model (`memFilter`) to the pure
pipeline: the caller's shared set (store slot 0) is never mutated, and the
final per-variable domains are exactly what independent per-variable
filtering computes, so no removal in one variable's domain ever leaks into
another's. -/

theorem getD_set_self {α : Type} (l : List α) (i : Nat) (a d : α) (h : i < l.length) :
    (l.set i a).getD i d = a := by
  rw [List.getD_eq_getElem?_getD, List.getElem?_set_self h]
  rfl

theorem getD_set_ne {α : Type} (l : List α) {i j : Nat} (a d : α) (h : i ≠ j) :
    (l.set i a).getD j d = l.getD j d := by
  rw [List.getD_eq_getElem?_getD, List.getElem?_set_ne h, ← List.getD_eq_getElem?_getD]

theorem getD_replicate {α : Type} {n j : Nat} (a d : α) (h : j < n) :
    (List.replicate n a).getD j d = a := by
  rw [List.getD_eq_getElem?_getD, List.getElem?_replicate, if_pos h]
  rfl

theorem getE_ok {α : Type} {l : List α} {i : Nat} (d : α) (h : i < l.length) :
    getE l i = .ok (l.getD i d) := by
  rw [getE, List.getElem?_eq_getElem h, List.getD_eq_getElem _ _ h]

theorem getE_error {α : Type} {l : List α} {i : Nat} (h : l.length ≤ i) :
    getE l i = .error .indexErr := by
  rw [getE, List.getElem?_eq_none_iff.mpr h]

/-- The loop `nodeAux` preserves the number of domains. -/
theorem nodeAux_length {cs : List DateConstraint} :
    ∀ {doms : List (List Date)} {i : Nat} {ds : List (List Date)},
      nodeAux cs i doms = .ok ds → ds.length = doms.length := by
  intro doms
  induction doms with
  | nil => intro i ds h; cases h; rfl
  | cons dom rest ih =>
    intro i ds h
    rw [nodeAux] at h
    cases hv : nodeVar i dom cs with
    | error err => rw [hv, exceptBind_error] at h; exact absurd h (by simp)
    | ok d =>
      rw [hv, exceptBind_ok] at h
      cases hr : nodeAux cs (i + 1) rest with
      | error err => rw [hr, exceptBind_error] at h; exact absurd h (by simp)
      | ok rest' =>
        rw [hr, exceptBind_ok] at h
        cases h
        simp [ih hr]

/-- Simulation of the node-consistency loop at store level, starting from the
fully aliased state produced by `solve`'s line 67: all unprocessed entries of
`domains` point at the caller's set (slot 0) and all snapshot slots hold a
copy of it.  The loop never touches slot 0, and each processed variable `j`
ends up owning the private slot `1 + j` holding exactly what the pure
`nodeAux` computes for it. -/
theorem memNodeGo_spec (s : List Date) (cs : List DateConstraint) (n : Nat) :
    ∀ (k i : Nat) (st : MemState),
      i + k = n →
      st.store.length = 1 + n →
      st.ptrs.length = n →
      st.store.getD 0 [] = s →
      (∀ j, i ≤ j → j < n → st.ptrs.getD j 0 = 0) →
      (∀ j, i ≤ j → j < n → st.store.getD (1 + j) [] = s) →
      (match nodeAux cs i (List.replicate k s) with
       | .error e =>
          ∃ stf, memNodeGo cs 1 (List.range' i k) st = (.error e, stf) ∧
            stf.store.getD 0 [] = s
       | .ok ds =>
          ∃ stf, memNodeGo cs 1 (List.range' i k) st = (.ok (), stf) ∧
            stf.store.length = 1 + n ∧
            stf.ptrs.length = n ∧
            stf.store.getD 0 [] = s ∧
            (∀ j, j < i → stf.ptrs.getD j 0 = st.ptrs.getD j 0) ∧
            (∀ m, m < k → stf.ptrs.getD (i + m) 0 = 1 + (i + m)) ∧
            (∀ j, j < 1 + i → stf.store.getD j [] = st.store.getD j []) ∧
            (∀ m, m < k → stf.store.getD (1 + (i + m)) [] = ds.getD m [])) := by
  intro k
  induction k with
  | zero =>
    intro i st h0 h1 h2 h3 h4 h5
    simp only [List.replicate, nodeAux, List.range', memNodeGo]
    exact ⟨st, rfl, h1, h2, h3, fun j _ => rfl,
      fun m hm => absurd hm (Nat.not_lt_zero m), fun j _ => rfl,
      fun m hm => absurd hm (Nat.not_lt_zero m)⟩
  | succ k ih =>
    intro i st h0 h1 h2 h3 h4 h5
    have hin : i < n := by omega
    have hp0 : st.ptrs.getD i 0 = 0 := h4 i (Nat.le_refl i) hin
    have hcur : st.store.getD (1 + i) [] = s := h5 i (Nat.le_refl i) hin
    have hrange : List.range' i (k + 1) = i :: List.range' (i + 1) k :=
      List.range'_succ i k 1
    cases hv : nodeVar i s cs with
    | error e =>
      have hv' : s.foldlM (fun c d => pruneVal i cs d c) s = .error e := hv
      have hfn : nodeAux cs i (List.replicate (k + 1) s) = .error e := by
        rw [List.replicate_succ, nodeAux, hv, exceptBind_error]
      rw [hfn]
      refine ⟨st, ?_, h3⟩
      rw [hrange]
      simp only [memNodeGo, hp0, h3, hcur, hv']
    | ok newCur =>
      have hv' : s.foldlM (fun c d => pruneVal i cs d c) s = .ok newCur := hv
      have hmemstep : memNodeGo cs 1 (List.range' i (k + 1)) st
          = memNodeGo cs 1 (List.range' (i + 1) k)
              ⟨st.store.set (1 + i) newCur, st.ptrs.set i (1 + i)⟩ := by
        rw [hrange]
        simp only [memNodeGo, hp0, h3, hcur, hv']
      have h0' : (i + 1) + k = n := by omega
      have h1' : (st.store.set (1 + i) newCur).length = 1 + n := by
        rw [List.length_set]; exact h1
      have h2' : (st.ptrs.set i (1 + i)).length = n := by
        rw [List.length_set]; exact h2
      have h3' : (st.store.set (1 + i) newCur).getD 0 [] = s := by
        rw [getD_set_ne _ _ _ (by omega)]; exact h3
      have h4' : ∀ j, i + 1 ≤ j → j < n → (st.ptrs.set i (1 + i)).getD j 0 = 0 := by
        intro j hj hjn
        rw [getD_set_ne _ _ _ (by omega)]
        exact h4 j (by omega) hjn
      have h5' : ∀ j, i + 1 ≤ j → j < n →
          (st.store.set (1 + i) newCur).getD (1 + j) [] = s := by
        intro j hj hjn
        rw [getD_set_ne _ _ _ (by omega)]
        exact h5 j (by omega) hjn
      have IH := ih (i + 1) ⟨st.store.set (1 + i) newCur, st.ptrs.set i (1 + i)⟩
        h0' h1' h2' h3' h4' h5'
      cases hrest : nodeAux cs (i + 1) (List.replicate k s) with
      | error e =>
        rw [hrest] at IH
        obtain ⟨stf, hmem, hstf0⟩ := IH
        have hfn : nodeAux cs i (List.replicate (k + 1) s) = .error e := by
          rw [List.replicate_succ, nodeAux, hv, exceptBind_ok, hrest, exceptBind_error]
        rw [hfn]
        exact ⟨stf, by rw [hmemstep]; exact hmem, hstf0⟩
      | ok rest' =>
        rw [hrest] at IH
        obtain ⟨stf, hmem, c1, c2, c3, c4, c5, c6, c7⟩ := IH
        have hfn : nodeAux cs i (List.replicate (k + 1) s) = .ok (newCur :: rest') := by
          rw [List.replicate_succ, nodeAux, hv, exceptBind_ok, hrest, exceptBind_ok,
            exceptPure_eq]
        rw [hfn]
        refine ⟨stf, by rw [hmemstep]; exact hmem, c1, c2, c3, ?_, ?_, ?_, ?_⟩
        · intro j hj
          rw [c4 j (by omega), getD_set_ne _ _ _ (by omega)]
        · intro m hm
          cases m with
          | zero =>
            rw [Nat.add_zero, c4 i (by omega), getD_set_self _ _ _ _ (by omega)]
          | succ m' =>
            have he : i + (m' + 1) = (i + 1) + m' := by omega
            rw [he]
            exact c5 m' (by omega)
        · intro j hj
          rw [c6 j (by omega), getD_set_ne _ _ _ (by omega)]
        · intro m hm
          cases m with
          | zero =>
            rw [Nat.add_zero, c6 (1 + i) (by omega), getD_set_self _ _ _ _ (by omega)]
            rfl
          | succ m' =>
            have he : 1 + (i + (m' + 1)) = 1 + ((i + 1) + m') := by omega
            rw [he, c7 m' (by omega)]
            rfl

/-- One revise step simulates: the store-level `inconsistent_val_removal`
raises exactly when the pure one does, removes the same values, and keeps
the invariant (in particular it writes only the tail variable's private
slot, never slot 0 and never another variable's slot). -/
theorem memRevise_spec {n : Nat} {s : List Date} {st : MemState} {doms : List (List Date)}
    (hrel : Rel n s st doms) (a : Arc) :
    (match inconsistent_val_removal doms a with
     | .error e => memRevise st a = .error e
     | .ok rd => ∃ st', memRevise st a = .ok (rd.1, st') ∧ Rel n s st' rd.2) := by
  obtain ⟨r1, r2, r3, r4, r5, r6⟩ := hrel
  by_cases ht : a.TAIL < n
  · have hd : getE doms a.TAIL = .ok (doms.getD a.TAIL []) := getE_ok [] (by omega)
    have hp : getE st.ptrs a.TAIL = .ok (st.ptrs.getD a.TAIL 0) := getE_ok 0 (by omega)
    by_cases hh : a.HEAD < n
    · have hd2 : getE doms a.HEAD = .ok (doms.getD a.HEAD []) := getE_ok [] (by omega)
      have hp2 : getE st.ptrs a.HEAD = .ok (st.ptrs.getD a.HEAD 0) := getE_ok 0 (by omega)
      have hpt : st.ptrs.getD a.TAIL 0 = 1 + a.TAIL := r5 a.TAIL ht
      have hph : st.ptrs.getD a.HEAD 0 = 1 + a.HEAD := r5 a.HEAD hh
      have halias : ((1 + a.TAIL == 1 + a.HEAD) : Bool) = (a.TAIL == a.HEAD) := by
        by_cases hth : a.TAIL = a.HEAD
        · rw [hth]
          simp
        · have h1 : ((a.TAIL == a.HEAD) : Bool) = false := by
            simp [hth]
          have h2 : ((1 + a.TAIL == 1 + a.HEAD) : Bool) = false := by
            simp only [beq_eq_false_iff_ne, ne_eq]
            omega
          rw [h1, h2]
      have hfn : inconsistent_val_removal doms a
          = .ok ((reviseLoop a.CONSTRAINT (a.TAIL == a.HEAD) (doms.getD a.HEAD [])
              (doms.getD a.TAIL []) (doms.getD a.TAIL []) false).2,
            doms.set a.TAIL (reviseLoop a.CONSTRAINT (a.TAIL == a.HEAD)
              (doms.getD a.HEAD []) (doms.getD a.TAIL [])
              (doms.getD a.TAIL []) false).1) := by
        rw [inconsistent_val_removal, hd, exceptBind_ok, hd2, exceptBind_ok]
        rfl
      have hmem : memRevise st a
          = .ok ((reviseLoop a.CONSTRAINT (a.TAIL == a.HEAD) (doms.getD a.HEAD [])
              (doms.getD a.TAIL []) (doms.getD a.TAIL []) false).2,
            ⟨st.store.set (1 + a.TAIL) (reviseLoop a.CONSTRAINT (a.TAIL == a.HEAD)
              (doms.getD a.HEAD []) (doms.getD a.TAIL [])
              (doms.getD a.TAIL []) false).1, st.ptrs⟩) := by
        rw [memRevise, hp, hp2]
        simp only [hpt, hph, halias, r6 a.TAIL ht, r6 a.HEAD hh]
      rw [hfn]
      refine ⟨_, hmem, ?_, ?_, ?_, ?_, ?_, ?_⟩
      · rw [List.length_set]; exact r1
      · exact r2
      · rw [List.length_set]; exact r3
      · rw [getD_set_ne _ _ _ (by omega)]; exact r4
      · exact r5
      · intro j hj
        by_cases hjt : j = a.TAIL
        · subst hjt
          rw [getD_set_self _ _ _ _ (by omega), getD_set_self _ _ _ _ (by omega)]
        · rw [getD_set_ne _ _ _ (by omega), getD_set_ne _ _ _ (fun h => hjt h.symm)]
          exact r6 j hj
    · have hd2 : getE doms a.HEAD = .error .indexErr := getE_error (by omega)
      have hp2 : getE st.ptrs a.HEAD = .error .indexErr := getE_error (by omega)
      have hfn : inconsistent_val_removal doms a = .error .indexErr := by
        rw [inconsistent_val_removal, hd, exceptBind_ok, hd2, exceptBind_error]
      rw [hfn, memRevise, hp, hp2]
  · have hd : getE doms a.TAIL = .error .indexErr := getE_error (by omega)
    have hp : getE st.ptrs a.TAIL = .error .indexErr := getE_error (by omega)
    have hfn : inconsistent_val_removal doms a = .error .indexErr := by
      rw [inconsistent_val_removal, hd, exceptBind_error]
    rw [hfn, memRevise, hp]

/-- The store-level AC-3 worklist loop simulates the pure one and keeps the
invariant; on any exception, slot 0 (the caller's set) is still intact. -/
theorem memAcLoop_spec {n : Nat} {s : List Date} {cs : List DateConstraint} :
    ∀ (fuel : Nat) (wl : List Arc) (st : MemState) (doms : List (List Date)),
      Rel n s st doms →
      (match acLoop cs fuel doms wl with
       | .ok d2 => ∃ stf, memAcLoop cs fuel st wl = (.ok (), stf) ∧ Rel n s stf d2
       | .error e => ∃ stf, memAcLoop cs fuel st wl = (.error e, stf) ∧
           stf.store.getD 0 [] = s) := by
  intro fuel
  induction fuel with
  | zero =>
    intro wl st doms hrel
    cases wl with
    | nil => exact ⟨st, rfl, hrel⟩
    | cons a rest => exact ⟨st, rfl, hrel.2.2.2.1⟩
  | succ fuel ih =>
    intro wl st doms hrel
    cases wl with
    | nil => exact ⟨st, rfl, hrel⟩
    | cons a rest =>
      have hstep := memRevise_spec hrel a
      cases hir : inconsistent_val_removal doms a with
      | error e =>
        rw [hir] at hstep
        rw [show acLoop cs (fuel + 1) doms (a :: rest) = .error e by
          rw [acLoop, hir]]
        exact ⟨st, by rw [memAcLoop, hstep], hrel.2.2.2.1⟩
      | ok rd =>
        rw [hir] at hstep
        obtain ⟨st', hmem, hrel'⟩ := hstep
        obtain ⟨rm, doms'⟩ := rd
        by_cases hrm : rm = true
        · subst hrm
          have hfn : acLoop cs (fuel + 1) doms (a :: rest)
              = acLoop cs fuel doms' (rest ++ reinsertArcs cs a.TAIL) := by
            rw [acLoop, hir]
            rfl
          have hmm : memAcLoop cs (fuel + 1) st (a :: rest)
              = memAcLoop cs fuel st' (rest ++ reinsertArcs cs a.TAIL) := by
            rw [memAcLoop, hmem]
            rfl
          rw [hfn, hmm]
          exact ih (rest ++ reinsertArcs cs a.TAIL) st' doms' hrel'
        · have hrm' : rm = false := by
            cases rm
            · rfl
            · exact absurd rfl hrm
          subst hrm'
          have hfn : acLoop cs (fuel + 1) doms (a :: rest) = acLoop cs fuel doms' rest := by
            rw [acLoop, hir]
            rfl
          have hmm : memAcLoop cs (fuel + 1) st (a :: rest)
              = memAcLoop cs fuel st' rest := by
            rw [memAcLoop, hmem]
            rfl
          rw [hfn, hmm]
          exact ih rest st' doms' hrel'

/-- Under the invariant, dereferencing the domains list gives the pure
domains. -/
theorem memDoms_eq_of_rel {n : Nat} {s : List Date} {st : MemState}
    {doms : List (List Date)} (hrel : Rel n s st doms) : memDoms st = doms := by
  obtain ⟨r1, r2, r3, r4, r5, r6⟩ := hrel
  apply List.ext_getElem?
  intro j
  rw [memDoms, List.getElem?_map]
  by_cases hj : j < n
  · rw [List.getElem?_eq_getElem (show j < st.ptrs.length by omega),
      List.getElem?_eq_getElem (show j < doms.length by omega)]
    simp only [Option.map_some']
    congr 1
    have e1 : st.ptrs[j] = 1 + j := by
      rw [← List.getD_eq_getElem st.ptrs 0 (show j < st.ptrs.length by omega)]
      exact r5 j hj
    rw [e1, r6 j hj, List.getD_eq_getElem doms [] (show j < doms.length by omega)]
  · rw [List.getElem?_eq_none_iff.mpr (show st.ptrs.length ≤ j by omega),
      List.getElem?_eq_none_iff.mpr (show doms.length ≤ j by omega)]
    rfl

/-- C7: frame safety of `solve`'s filtering phase on a single shared
candidate set, stated over the store model `memFilter` (which makes the
aliasing of line 67 explicit).  (1) The caller's set — store slot 0, which
every `domains` entry initially references — holds exactly the same elements
after filtering as before, whether filtering completes or raises: the
snapshot copies taken by `node_consistency` are the only objects ever
mutated.  (2) Whenever filtering completes, each variable's final domain is
exactly what the pure pipeline (`node_consistency` then `arc_consistency`
acting on per-variable values with no sharing) computes: removing a value
from one variable's domain never removes it from another variable's
domain. -/
theorem solve_filtering_no_cross_mutation (n : Nat) (s : List Date) (cs : List DateConstraint) :
    (memFilter n s cs).2.store.getD 0 [] = s ∧
    ((memFilter n s cs).1 = .ok () →
      ∃ d1 d2, node_consistency (List.replicate n s) cs = .ok d1 ∧
        arc_consistency d1 cs = .ok d2 ∧ memDoms (memFilter n s cs).2 = d2) := by
  have hmn : memNode ⟨[s], List.replicate n 0⟩ cs
      = memNodeGo cs 1 (List.range' 0 n)
          ⟨[s] ++ List.replicate n s, List.replicate n 0⟩ := by
    rw [memNode]
    simp only [List.map_replicate, List.length_replicate, List.range_eq_range']
    rfl
  have h1 : (([s] ++ List.replicate n s : List (List Date))).length = 1 + n := by
    simp
    omega
  have h2 : (List.replicate n (0 : Nat)).length = n := by simp
  have h3 : (([s] ++ List.replicate n s : List (List Date))).getD 0 [] = s := rfl
  have h4 : ∀ j, 0 ≤ j → j < n → (List.replicate n (0 : Nat)).getD j 0 = 0 := by
    intro j _ hj
    exact getD_replicate 0 0 hj
  have h5 : ∀ j, 0 ≤ j → j < n →
      (([s] ++ List.replicate n s : List (List Date))).getD (1 + j) [] = s := by
    intro j _ hj
    rw [Nat.add_comm 1 j]
    show (List.replicate n s).getD j [] = s
    exact getD_replicate s [] hj
  have hspec := memNodeGo_spec s cs n n 0
    ⟨[s] ++ List.replicate n s, List.replicate n 0⟩ (by omega) h1 h2 h3 h4 h5
  cases hnc : nodeAux cs 0 (List.replicate n s) with
  | error e =>
    rw [hnc] at hspec
    obtain ⟨stf, hrun, hst0⟩ := hspec
    have hmf : memFilter n s cs = (.error e, stf) := by
      rw [memFilter, hmn, hrun]
    rw [hmf]
    exact ⟨hst0, fun h => absurd h (by simp)⟩
  | ok d1 =>
    rw [hnc] at hspec
    obtain ⟨stf, hrun, c1, c2, c3, c4, c5, c6, c7⟩ := hspec
    have hd1len : d1.length = n := by
      rw [nodeAux_length hnc, List.length_replicate]
    have hrel1 : Rel n s stf d1 := by
      refine ⟨c1, c2, hd1len, c3, ?_, ?_⟩
      · intro j hj
        have := c5 j hj
        rwa [Nat.zero_add] at this
      · intro j hj
        have := c7 j hj
        rwa [Nat.zero_add] at this
    have hmemdoms : memDoms stf = d1 := memDoms_eq_of_rel hrel1
    have hma : memArc stf cs
        = memAcLoop cs (acFuel d1 cs) stf (initArcs cs) := by
      rw [memArc, hmemdoms]
    have hal := @memAcLoop_spec n s cs (acFuel d1 cs) (initArcs cs) stf d1 hrel1
    cases hac : acLoop cs (acFuel d1 cs) d1 (initArcs cs) with
    | error e =>
      rw [hac] at hal
      obtain ⟨stf', hrun', hst0'⟩ := hal
      have hstep : memFilter n s cs
          = (match memArc stf cs with
             | (.error err, st') => ((.error err : Except PyErr Unit), st')
             | (.ok _, st') => (.ok (), st')) := by
        rw [memFilter, hmn, hrun]
      have hmf : memFilter n s cs = (.error e, stf') := by
        rw [hstep, hma, hrun']
      rw [hmf]
      exact ⟨hst0', fun h => absurd h (by simp)⟩
    | ok d2 =>
      rw [hac] at hal
      obtain ⟨stf', hrun', hrel2⟩ := hal
      have hstep : memFilter n s cs
          = (match memArc stf cs with
             | (.error err, st') => ((.error err : Except PyErr Unit), st')
             | (.ok _, st') => (.ok (), st')) := by
        rw [memFilter, hmn, hrun]
      have hmf : memFilter n s cs = (.ok (), stf') := by
        rw [hstep, hma, hrun']
      rw [hmf]
      refine ⟨hrel2.2.2.2.1, fun _ => ⟨d1, d2, hnc, hac, memDoms_eq_of_rel hrel2⟩⟩

/-- Witness for `solve_filtering_no_cross_mutation` at a concrete input. -/
theorem solve_filtering_no_cross_mutation_witness :
    (memFilter 1 [4] []).2.store.getD 0 [] = [4] ∧
    (∃ d1 d2, node_consistency (List.replicate 1 [4]) [] = .ok d1 ∧
      arc_consistency d1 [] = .ok d2 ∧ memDoms (memFilter 1 [4] []).2 = d2) :=
  ⟨(solve_filtering_no_cross_mutation 1 [4] []).1,
   (solve_filtering_no_cross_mutation 1 [4] []).2 rfl⟩

end CspSolver
